import Mathlib

/-!
# Reckless: the Pyrrhic adaptation layer

A verification development for the two headers `src/deps/pyrrhic/bridge.h` and
`src/deps/pyrrhic/tbconfig.h`.

* `bridge.h` declares nine C-linkage primitives (`reckless_popcount`, ...).
  Their bodies are not part of the headers, so the adaptation layer is verified
  against an arbitrary implementation `Prims G` of the nine prototypes.
* `tbconfig.h` defines nine function-like `#define`s (`PYRRHIC_POPCOUNT`, ...).
  A `#define` is a token substitution, so each one is embedded as its
  replacement list, token for token; an invocation is expanded, parsed with the
  C precedence rules and evaluated.
-/

namespace Reckless

/-! ## Tokens and replacement lists -/

/-- The nine function identifiers declared in `bridge.h`. -/
inductive Prim where
  | reckless_popcount
  | reckless_lsb
  | reckless_poplsb
  | reckless_pawn_attacks
  | reckless_knight_attacks
  | reckless_bishop_attacks
  | reckless_rook_attacks
  | reckless_queen_attacks
  | reckless_king_attacks
  deriving DecidableEq, Repr

/-- Binary operators of C that bind more loosely than a unary operator:
`<  <=  >  >=  ==  !=  &  ^  |  &&  ||`. -/
inductive BinOp where
  | lt | le | gt | ge | eq | ne | band | bxor | bor | land | lor
  deriving DecidableEq, Repr

/-- Preprocessing tokens. `op .band` is the token `&`, which is the binary
bitwise AND in operator position and the address-of operator in operand
position. -/
inductive Tok where
  | ident (x : String)
  | num (n : Nat)
  | fn (p : Prim)
  | lparen
  | rparen
  | comma
  | bang
  | op (o : BinOp)
  deriving DecidableEq, Repr

/-- One element of a replacement list: a literal token or the i-th parameter. -/
inductive Item where
  | tok (t : Tok)
  | param (i : Nat)
  deriving DecidableEq, Repr

/-- A function-like `#define`: its number of parameters and its replacement list. -/
structure Define where
  arity : Nat
  body : List Item
  deriving DecidableEq, Repr

/-- Substitution of one replacement-list element. -/
def Item.subst (args : List (List Tok)) : Item → List Tok
  | .tok t => [t]
  | .param i => args.getD i []

/-- Expansion of an invocation: every parameter is replaced by the tokens of the
corresponding argument; an invocation with the wrong number of arguments is
rejected. -/
def Define.expand (d : Define) (args : List (List Tok)) : Option (List Tok) :=
  if args.length = d.arity then some ((d.body.map (Item.subst args)).flatten) else none

/-- The replacement list `( f ( p0 ) )`. -/
def forward1 (f : Prim) : List Item :=
  [.tok .lparen, .tok (.fn f), .tok .lparen, .param 0, .tok .rparen, .tok .rparen]

/-- The replacement list `( f ( p0 , p1 ) )`. -/
def forward2 (f : Prim) : List Item :=
  [.tok .lparen, .tok (.fn f), .tok .lparen, .param 0, .tok .comma, .param 1,
   .tok .rparen, .tok .rparen]

/-- Source: `#define PYRRHIC_POPCOUNT(x) (reckless_popcount(x))` -/
def PYRRHIC_POPCOUNT : Define := ⟨1, forward1 .reckless_popcount⟩

/-- Source: `#define PYRRHIC_LSB(x) (reckless_lsb(x))` -/
def PYRRHIC_LSB : Define := ⟨1, forward1 .reckless_lsb⟩

/-- Source: `#define PYRRHIC_POPLSB(x) (reckless_poplsb(x))` -/
def PYRRHIC_POPLSB : Define := ⟨1, forward1 .reckless_poplsb⟩

/-- Source: `#define PYRRHIC_PAWN_ATTACKS(sq, c) (reckless_pawn_attacks(sq, !c))` -/
def PYRRHIC_PAWN_ATTACKS : Define :=
  ⟨2, [.tok .lparen, .tok (.fn .reckless_pawn_attacks), .tok .lparen, .param 0, .tok .comma,
       .tok .bang, .param 1, .tok .rparen, .tok .rparen]⟩

/-- Source: `#define PYRRHIC_KNIGHT_ATTACKS(sq) (reckless_knight_attacks(sq))` -/
def PYRRHIC_KNIGHT_ATTACKS : Define := ⟨1, forward1 .reckless_knight_attacks⟩

/-- Source: `#define PYRRHIC_BISHOP_ATTACKS(sq, occ) (reckless_bishop_attacks(sq, occ))` -/
def PYRRHIC_BISHOP_ATTACKS : Define := ⟨2, forward2 .reckless_bishop_attacks⟩

/-- Source: `#define PYRRHIC_ROOK_ATTACKS(sq, occ) (reckless_rook_attacks(sq, occ))` -/
def PYRRHIC_ROOK_ATTACKS : Define := ⟨2, forward2 .reckless_rook_attacks⟩

/-- Source: `#define PYRRHIC_QUEEN_ATTACKS(sq, occ) (reckless_queen_attacks(sq, occ))` -/
def PYRRHIC_QUEEN_ATTACKS : Define := ⟨2, forward2 .reckless_queen_attacks⟩

/-- Source: `#define PYRRHIC_KING_ATTACKS(sq) (reckless_king_attacks(sq))` -/
def PYRRHIC_KING_ATTACKS : Define := ⟨1, forward1 .reckless_king_attacks⟩

/-- The nine definitions of `tbconfig.h`, in source order. -/
def tbconfig : List Define :=
  [PYRRHIC_POPCOUNT, PYRRHIC_LSB, PYRRHIC_POPLSB, PYRRHIC_PAWN_ATTACKS, PYRRHIC_KNIGHT_ATTACKS,
   PYRRHIC_BISHOP_ATTACKS, PYRRHIC_ROOK_ATTACKS, PYRRHIC_QUEEN_ATTACKS, PYRRHIC_KING_ATTACKS]

/-! ## C expressions: abstract syntax and parser -/

/-- Expressions of the C fragment: constants, variables, parenthesised
expressions, `!e`, `&e`, binary operators and calls of a primitive with one or
two arguments (the arities of `bridge.h`). The conditional operator `?:`,
arithmetic, casts, assignment and member access are outside the fragment. -/
inductive Expr where
  | num (n : Nat)
  | var (x : String)
  | paren (e : Expr)
  | not (e : Expr)
  | addr (e : Expr)
  | bin (o : BinOp) (l r : Expr)
  | call1 (f : Prim) (a : Expr)
  | call2 (f : Prim) (a b : Expr)
  deriving DecidableEq, Repr

/-- Binding strength of the binary operators (C11 6.5.8 to 6.5.14); a larger
number binds tighter. Every unary operator binds tighter than all of them. -/
def BinOp.prec : BinOp → Nat
  | .lor => 1
  | .land => 2
  | .bor => 3
  | .bxor => 4
  | .band => 5
  | .eq => 6
  | .ne => 6
  | .lt => 7
  | .le => 7
  | .gt => 7
  | .ge => 7

mutual
/-- Unary and primary expressions: a constant, a variable, `( e )`, `f ( e )`,
`f ( e , e )`, `! u` and `& u`. -/
def parseUnary : Nat → List Tok → Option (Expr × List Tok)
  | 0, _ => none
  | n + 1, ts =>
    match ts with
    | .num k :: r => some (.num k, r)
    | .ident x :: r => some (.var x, r)
    | .bang :: r =>
      match parseUnary n r with
      | some (e, r') => some (.not e, r')
      | none => none
    | .op .band :: r =>
      match parseUnary n r with
      | some (e, r') => some (.addr e, r')
      | none => none
    | .lparen :: r =>
      match parseExpr n 0 r with
      | some (e, .rparen :: r') => some (.paren e, r')
      | _ => none
    | .fn f :: .lparen :: r =>
      match parseExpr n 0 r with
      | some (a, .rparen :: r') => some (.call1 f a, r')
      | some (a, .comma :: r') =>
        match parseExpr n 0 r' with
        | some (b, .rparen :: r'') => some (.call2 f a b, r'')
        | _ => none
      | _ => none
    | _ => none
/-- A binary expression all of whose top-level operators bind at least as
tightly as `m`: one unary expression followed by operator/operand pairs. -/
def parseExpr : Nat → Nat → List Tok → Option (Expr × List Tok)
  | 0, _, _ => none
  | n + 1, m, ts =>
    match parseUnary n ts with
    | some (l, r) => parseRhs n m l r
    | none => none
/-- The operator/operand pairs that follow a left operand `l` (left
associative precedence climbing). -/
def parseRhs : Nat → Nat → Expr → List Tok → Option (Expr × List Tok)
  | 0, _, _, _ => none
  | n + 1, m, l, ts =>
    match ts with
    | .op o :: r =>
      if m ≤ o.prec then
        match parseExpr n (o.prec + 1) r with
        | some (e, r') => parseRhs n m (.bin o l e) r'
        | none => none
      else some (l, ts)
    | _ => some (l, ts)
end

/-- Recursion budget given to the parser for a token list. A parse needs at most
twice the number of tokens plus one (`parse_budget`), so this budget is never
the reason for a failure (`parse_complete`). -/
def fuelFor (ts : List Tok) : Nat := 4 * ts.length + 4

/-- Parse a complete token list as one expression. -/
def parse (ts : List Tok) : Option Expr :=
  match parseExpr (fuelFor ts) 0 ts with
  | some (e, []) => some e
  | _ => none

/-! ## Values, states and the prototypes of `bridge.h` -/

/-- Run-time values: an integer, or the address of a variable. -/
inductive Val where
  | int (i : Int)
  | ptr (x : String)
  deriving DecidableEq, Repr

/-- The machine state seen by an expression: the global state `glob` that only
the primitives can touch, the caller's integer variables, and the log of the
primitive calls made so far. -/
structure State (G : Type) where
  glob : G
  vars : String → Int
  log : List Prim

/-- An implementation of the nine prototypes of `bridge.h`. Every primitive
receives the global state and returns its result with the new global state;
`reckless_poplsb` receives the bitboard its pointer argument points to and
returns its result, the new value of that bitboard and the new global state.

    uint32_t reckless_popcount(uint64_t bitboard);
    uint32_t reckless_lsb(uint64_t bitboard);
    uint64_t reckless_poplsb(uint64_t* bitboard);
    uint64_t reckless_pawn_attacks(uint32_t square, bool color);
    uint64_t reckless_knight_attacks(uint32_t square);
    uint64_t reckless_bishop_attacks(uint32_t square, uint64_t occupancies);
    uint64_t reckless_rook_attacks(uint32_t square, uint64_t occupancies);
    uint64_t reckless_queen_attacks(uint32_t square, uint64_t occupancies);
    uint64_t reckless_king_attacks(uint32_t square); -/
structure Prims (G : Type) where
  reckless_popcount : G → Nat → Nat × G
  reckless_lsb : G → Nat → Nat × G
  reckless_poplsb : G → Nat → Nat × Nat × G
  reckless_pawn_attacks : G → Nat → Bool → Nat × G
  reckless_knight_attacks : G → Nat → Nat × G
  reckless_bishop_attacks : G → Nat → Nat → Nat × G
  reckless_rook_attacks : G → Nat → Nat → Nat × G
  reckless_queen_attacks : G → Nat → Nat → Nat × G
  reckless_king_attacks : G → Nat → Nat × G

/-- Conversion of an integer argument to a `uint32_t` parameter. -/
def toU32 (i : Int) : Nat := (i % 2 ^ 32).toNat

/-- Conversion of an integer argument to a `uint64_t` parameter. -/
def toU64 (i : Int) : Nat := (i % 2 ^ 64).toNat

/-- Conversion of an integer argument to a `bool` parameter. -/
def toBool (i : Int) : Bool := decide (i ≠ 0)

/-- The value of `!e` for an integer operand: 1 when the operand compares equal
to 0, and 0 otherwise. -/
def lnot (i : Int) : Int := if i = 0 then 1 else 0

/-- The value of a binary operator on two integer operands. -/
def BinOp.apply : BinOp → Int → Int → Int
  | .lt, a, b => if a < b then 1 else 0
  | .le, a, b => if a ≤ b then 1 else 0
  | .gt, a, b => if b < a then 1 else 0
  | .ge, a, b => if b ≤ a then 1 else 0
  | .eq, a, b => if a = b then 1 else 0
  | .ne, a, b => if a = b then 0 else 1
  | .band, a, b => Int.land a b
  | .bxor, a, b => Int.xor a b
  | .bor, a, b => Int.lor a b
  | .land, a, b => if a = 0 then 0 else if b = 0 then 0 else 1
  | .lor, a, b => if a = 0 then (if b = 0 then 0 else 1) else 1

/-- Short circuit: the value of `a && r` and of `a || r` when the left operand
alone decides it, in which case the right operand is not evaluated. -/
def BinOp.shortCircuit : BinOp → Int → Option Int
  | .land, a => if a = 0 then some 0 else none
  | .lor, a => if a = 0 then none else some 1
  | _, _ => none

/-- The result of a call: the returned integer, the new global state and the
call appended to the log. -/
def ret {G : Type} (f : Prim) (s : State G) (r : Nat × G) : Option (Val × State G) :=
  some (.int r.1, ⟨r.2, s.vars, s.log ++ [f]⟩)

/-- A call with one argument. The argument is converted to the parameter type
of the prototype; a pointer where an integer is expected, an integer where a
pointer is expected, and a primitive with two parameters are rejected. -/
def callPrim1 {G : Type} (P : Prims G) (f : Prim) (v : Val) (s : State G) :
    Option (Val × State G) :=
  match f, v with
  | .reckless_popcount, .int i => ret f s (P.reckless_popcount s.glob (toU64 i))
  | .reckless_lsb, .int i => ret f s (P.reckless_lsb s.glob (toU64 i))
  | .reckless_poplsb, .ptr x =>
    let r := P.reckless_poplsb s.glob (toU64 (s.vars x))
    some (.int r.1, ⟨r.2.2, Function.update s.vars x r.2.1, s.log ++ [f]⟩)
  | .reckless_knight_attacks, .int i => ret f s (P.reckless_knight_attacks s.glob (toU32 i))
  | .reckless_king_attacks, .int i => ret f s (P.reckless_king_attacks s.glob (toU32 i))
  | _, _ => none

/-- A call with two arguments, each converted to its parameter type. -/
def callPrim2 {G : Type} (P : Prims G) (f : Prim) (v w : Val) (s : State G) :
    Option (Val × State G) :=
  match f, v, w with
  | .reckless_pawn_attacks, .int i, .int c =>
    ret f s (P.reckless_pawn_attacks s.glob (toU32 i) (toBool c))
  | .reckless_bishop_attacks, .int i, .int o =>
    ret f s (P.reckless_bishop_attacks s.glob (toU32 i) (toU64 o))
  | .reckless_rook_attacks, .int i, .int o =>
    ret f s (P.reckless_rook_attacks s.glob (toU32 i) (toU64 o))
  | .reckless_queen_attacks, .int i, .int o =>
    ret f s (P.reckless_queen_attacks s.glob (toU32 i) (toU64 o))
  | _, _, _ => none

/-- Evaluation of an expression. Operands and arguments are evaluated left to
right (C leaves that order open, except for `&&` and `||`; the model fixes it);
`&&` and `||` skip their right operand when the left one decides;
`&` applies to a variable only; the address of a variable is never null, so
`!` of it is 0. `none` is an expression the fragment gives no value. -/
def eval {G : Type} (P : Prims G) : Expr → State G → Option (Val × State G)
  | .num n, s => some (.int n, s)
  | .var x, s => some (.int (s.vars x), s)
  | .paren e, s => eval P e s
  | .not e, s =>
    match eval P e s with
    | some (.int i, s1) => some (.int (lnot i), s1)
    | some (.ptr _, s1) => some (.int 0, s1)
    | none => none
  | .addr e, s =>
    match e with
    | .var x => some (.ptr x, s)
    | _ => none
  | .bin o l r, s =>
    match eval P l s with
    | some (.int a, s1) =>
      match o.shortCircuit a with
      | some v => some (.int v, s1)
      | none =>
        match eval P r s1 with
        | some (.int b, s2) => some (.int (o.apply a b), s2)
        | _ => none
    | _ => none
  | .call1 f a, s =>
    match eval P a s with
    | some (v, s1) => callPrim1 P f v s1
    | none => none
  | .call2 f a b, s =>
    match eval P a s with
    | some (v, s1) =>
      match eval P b s1 with
      | some (w, s2) => callPrim2 P f v w s2
      | none => none
    | none => none

/-- Parse and evaluate a token list. -/
def run {G : Type} (P : Prims G) (ts : List Tok) (s : State G) : Option (Val × State G) :=
  match parse ts with
  | some e => eval P e s
  | none => none

/-- Expand, parse and evaluate an invocation of a `#define`. -/
def invoke {G : Type} (P : Prims G) (d : Define) (args : List (List Tok)) (s : State G) :
    Option (Val × State G) :=
  match d.expand args with
  | some ts => run P ts s
  | none => none

/-- Token lists at which a binary expression ends: the end of the input, a
closing parenthesis or a comma. -/
def stops : List Tok → Bool
  | [] => true
  | .rparen :: _ => true
  | .comma :: _ => true
  | _ => false

/-- The expression obtained when `!` is written in front of the tokens of `e`
without parentheses: the operator attaches to the leftmost operand of the
top-level binary operators of `e`. -/
def negLeft : Expr → Expr
  | .bin o l r => .bin o (negLeft l) r
  | e => .not e

/-- A replacement-list element that is the identifier of a primitive. -/
def Item.isFn : Item → Bool
  | .tok (.fn _) => true
  | _ => false

/-- A replacement-list element that is a parameter. -/
def Item.isParam : Item → Bool
  | .param _ => true
  | _ => false

/-! ## The primitives, modelled from the specification

`bridge.h` only declares the primitives. The definitions below follow the
specification's description of each operation. -/

namespace Model

/-- Modelled from the spec: a helper of `reckless_popcount`, whose body is not in
the headers: the number of set bits among the bit positions below `k`. -/
def bitCount (k v : Nat) : Nat := ((List.range k).filter (fun i => v.testBit i)).length

/-- Modelled from the spec: the body of `reckless_popcount`, which is not in the
headers. "Population count: takes a bitboard, returns the number of set bits
(0-64)." -/
def reckless_popcount (bitboard : Nat) : Nat := bitCount 64 bitboard

/-- Modelled from the spec: a helper of `reckless_lsb`, whose body is not in the
headers: scan the bit positions upwards from `i`, at most `k` of them, and stop
at the first set bit. -/
def lsbFrom (bitboard : Nat) : Nat → Nat → Nat
  | 0, i => i
  | k + 1, i => if bitboard.testBit i then i else lsbFrom bitboard k (i + 1)

/-- Modelled from the spec: the body of `reckless_lsb`, which is not in the
headers. "Least-significant set bit index: takes a bitboard, returns the 0-based
index of the lowest set bit." The spec leaves the result for a zero bitboard
open; the scan then ends at 64. -/
def reckless_lsb (bitboard : Nat) : Nat := lsbFrom bitboard 64 0

/-- Modelled from the spec: a helper of `reckless_poplsb`, whose body is not in
the headers: the bitboard with bit `i` cleared. -/
def clearBit (bitboard i : Nat) : Nat :=
  if bitboard.testBit i then bitboard - 2 ^ i else bitboard

/-- Modelled from the spec: the body of `reckless_poplsb`, which is not in the
headers. "Pop-least-significant-bit: takes a mutable reference to a bitboard,
clears its lowest set bit, and returns the bitboard value before clearing (or
the cleared bit's mask ...)". The first component is the returned value, taken
to be the value before clearing, and the second the bitboard afterwards. -/
def reckless_poplsb (bitboard : Nat) : Nat × Nat :=
  (bitboard, clearBit bitboard (reckless_lsb bitboard))

/-- Modelled from the spec: board geometry, which is not in the headers: file
`f` and rank `r` lie on the 8 x 8 board. -/
def onBoard (f r : Int) : Bool := decide (0 ≤ f ∧ f < 8 ∧ 0 ≤ r ∧ r < 8)

/-- Modelled from the spec: board geometry, which is not in the headers: the
bitboard with only the square of file `f` and rank `r` set, square `8 * r + f`
being bit `8 * r + f`. -/
def bit (f r : Int) : Nat := 2 ^ (r * 8 + f).toNat

/-- Modelled from the spec: a helper of the sliding-piece primitives, whose
bodies are not in the headers: the squares reached from file `f`, rank `r` in
direction `(df, dr)`, up to and including the first occupied square. -/
def ray (occ : Nat) (df dr : Int) : Nat → Int → Int → Nat
  | 0, _, _ => 0
  | k + 1, f, r =>
    if onBoard (f + df) (r + dr) then
      if occ.testBit ((r + dr) * 8 + (f + df)).toNat then bit (f + df) (r + dr)
      else bit (f + df) (r + dr) ||| ray occ df dr k (f + df) (r + dr)
    else 0

/-- Modelled from the spec: a helper of the sliding-piece primitives, whose
bodies are not in the headers: the union of the rays in the given directions.
"take a square and an occupancy bitboard (blocking pieces), return the
sliding-piece attack bitboard accounting for blockers". -/
def slide (dirs : List (Int × Int)) (square occ : Nat) : Nat :=
  dirs.foldl (fun acc d => acc ||| ray occ d.1 d.2 7 (square % 8 : Nat) (square / 8 : Nat)) 0

/-- Modelled from the spec: the body of `reckless_bishop_attacks`, which is not
in the headers: a bishop slides along the four diagonals. -/
def reckless_bishop_attacks (square occupancies : Nat) : Nat :=
  slide [(1, 1), (1, -1), (-1, -1), (-1, 1)] square occupancies

/-- Modelled from the spec: the body of `reckless_rook_attacks`, which is not in
the headers: a rook slides along its file and its rank. -/
def reckless_rook_attacks (square occupancies : Nat) : Nat :=
  slide [(0, 1), (1, 0), (0, -1), (-1, 0)] square occupancies

/-- Modelled from the spec: the body of `reckless_queen_attacks`, which is not
in the headers: a queen slides in all eight directions, listed clockwise. -/
def reckless_queen_attacks (square occupancies : Nat) : Nat :=
  slide [(0, 1), (1, 1), (1, 0), (1, -1), (0, -1), (-1, -1), (-1, 0), (-1, 1)] square occupancies

/-- Modelled from the spec: a helper of the knight and king primitives, whose
bodies are not in the headers: the squares one step away in the given
directions. "take a square, return the fixed attack bitboard for that piece
from that square (no occupancy dependency)". -/
def step (dirs : List (Int × Int)) (square : Nat) : Nat :=
  dirs.foldl (fun acc d =>
    if onBoard ((square % 8 : Nat) + d.1) ((square / 8 : Nat) + d.2) then
      acc ||| bit ((square % 8 : Nat) + d.1) ((square / 8 : Nat) + d.2)
    else acc) 0

/-- Modelled from the spec: the body of `reckless_knight_attacks`, which is not
in the headers: the eight knight jumps. -/
def reckless_knight_attacks (square : Nat) : Nat :=
  step [(1, 2), (2, 1), (2, -1), (1, -2), (-1, -2), (-2, -1), (-2, 1), (-1, 2)] square

/-- Modelled from the spec: the body of `reckless_king_attacks`, which is not in
the headers: the eight neighbouring squares. -/
def reckless_king_attacks (square : Nat) : Nat :=
  step [(0, 1), (1, 1), (1, 0), (1, -1), (0, -1), (-1, -1), (-1, 0), (-1, 1)] square

/-- Modelled from the spec: the nine primitives as an implementation of the
prototypes, none of which reads or writes the global state ("pure, stateless
functions over primitive values"). The spec does not fix which colour a flag
value stands for, so the pawn-attack table is a parameter. -/
def prims (G : Type) (pawn : Nat → Bool → Nat) : Prims G where
  reckless_popcount g b := (reckless_popcount b, g)
  reckless_lsb g b := (reckless_lsb b, g)
  reckless_poplsb g b := ((reckless_poplsb b).1, (reckless_poplsb b).2, g)
  reckless_pawn_attacks g sq c := (pawn sq c, g)
  reckless_knight_attacks g sq := (reckless_knight_attacks sq, g)
  reckless_bishop_attacks g sq occ := (reckless_bishop_attacks sq occ, g)
  reckless_rook_attacks g sq occ := (reckless_rook_attacks sq occ, g)
  reckless_queen_attacks g sq occ := (reckless_queen_attacks sq occ, g)
  reckless_king_attacks g sq := (reckless_king_attacks sq, g)

end Model

/-! ## A recording stub and a sample state -/

/-- Stub primitives: each one returns 0 and records the call in the global state:
the primitive and the arguments it received, a colour flag as 0 or 1. The stub
of `reckless_poplsb` leaves `b & (b - 1)` in the bitboard `b` it is pointed to. -/
def stub : Prims (List (Prim × List Nat)) where
  reckless_popcount g b := (0, g ++ [(.reckless_popcount, [b])])
  reckless_lsb g b := (0, g ++ [(.reckless_lsb, [b])])
  reckless_poplsb g b := (0, b &&& (b - 1), g ++ [(.reckless_poplsb, [b])])
  reckless_pawn_attacks g sq c := (0, g ++ [(.reckless_pawn_attacks, [sq, if c then 1 else 0])])
  reckless_knight_attacks g sq := (0, g ++ [(.reckless_knight_attacks, [sq])])
  reckless_bishop_attacks g sq occ := (0, g ++ [(.reckless_bishop_attacks, [sq, occ])])
  reckless_rook_attacks g sq occ := (0, g ++ [(.reckless_rook_attacks, [sq, occ])])
  reckless_queen_attacks g sq occ := (0, g ++ [(.reckless_queen_attacks, [sq, occ])])
  reckless_king_attacks g sq := (0, g ++ [(.reckless_king_attacks, [sq])])

/-- Sample variables: `sq = 27`, `occ = 256`, `a = 2`, `b = 12`, `c = 1`, and 0
for every other name. -/
def sampleVars : String → Int := fun x =>
  if x = "sq" then 27 else if x = "occ" then 256 else if x = "a" then 2
  else if x = "b" then 12 else if x = "c" then 1 else 0

/-- A sample state for the stub: nothing recorded yet. -/
def sample : State (List (Prim × List Nat)) := ⟨[], sampleVars, []⟩

/-- What a test observes of an outcome: the value, the global state, the
variables `a` and `b`, and the log of calls. -/
def observe {G : Type} (r : Option (Val × State G)) :
    Option (Val × G × Int × Int × List Prim) :=
  r.map (fun p => (p.1, p.2.glob, p.2.vars "a", p.2.vars "b", p.2.log))

/-! ## The parser: unfolding, recursion budget, and what follows an expression -/

theorem parseUnary_succ (n : Nat) (ts : List Tok) :
    parseUnary (n + 1) ts =
      (match ts with
      | .num k :: r => some (.num k, r)
      | .ident x :: r => some (.var x, r)
      | .bang :: r =>
        match parseUnary n r with
        | some (e, r') => some (.not e, r')
        | none => none
      | .op .band :: r =>
        match parseUnary n r with
        | some (e, r') => some (.addr e, r')
        | none => none
      | .lparen :: r =>
        match parseExpr n 0 r with
        | some (e, .rparen :: r') => some (.paren e, r')
        | _ => none
      | .fn f :: .lparen :: r =>
        match parseExpr n 0 r with
        | some (a, .rparen :: r') => some (.call1 f a, r')
        | some (a, .comma :: r') =>
          match parseExpr n 0 r' with
          | some (b, .rparen :: r'') => some (.call2 f a b, r'')
          | _ => none
        | _ => none
      | _ => none) := by
  rfl

theorem parseExpr_succ (n m : Nat) (ts : List Tok) :
    parseExpr (n + 1) m ts =
      (match parseUnary n ts with
      | some (l, r) => parseRhs n m l r
      | none => none) := by
  rfl

theorem parseRhs_succ (n m : Nat) (l : Expr) (ts : List Tok) :
    parseRhs (n + 1) m l ts =
      (match ts with
      | .op o :: r =>
        if m ≤ o.prec then
          match parseExpr n (o.prec + 1) r with
          | some (e, r') => parseRhs n m (.bin o l e) r'
          | none => none
        else some (l, ts)
      | _ => some (l, ts)) := by
  rfl

/-- A larger recursion budget never changes a result. -/
theorem parse_mono_step (n : Nat) :
    (∀ ts r, parseUnary n ts = some r → parseUnary (n + 1) ts = some r) ∧
    (∀ m ts r, parseExpr n m ts = some r → parseExpr (n + 1) m ts = some r) ∧
    (∀ m l ts r, parseRhs n m l ts = some r → parseRhs (n + 1) m l ts = some r) := by
  induction n with
  | zero => simp [parseUnary, parseExpr, parseRhs]
  | succ n ih =>
    obtain ⟨ihU, ihE, ihR⟩ := ih
    refine ⟨?_, ?_, ?_⟩
    · intro ts r h
      rw [parseUnary_succ] at h
      rw [parseUnary_succ]
      split at h
      next k r0 => exact h
      next x r0 => exact h
      next r0 =>
        cases hq : parseUnary n r0 with
        | none => simp [hq] at h
        | some p => simp only [ihU _ _ hq]; simpa only [hq] using h
      next r0 =>
        cases hq : parseUnary n r0 with
        | none => simp [hq] at h
        | some p => simp only [ihU _ _ hq]; simpa only [hq] using h
      next r0 =>
        cases hq : parseExpr n 0 r0 with
        | none => simp [hq] at h
        | some p => simp only [ihE _ _ _ hq]; simpa only [hq] using h
      next f r0 =>
        cases hq : parseExpr n 0 r0 with
        | none => simp [hq] at h
        | some p =>
          simp only [ihE _ _ _ hq]
          rw [hq] at h
          obtain ⟨a, q⟩ := p
          rcases q with _ | ⟨t, q⟩
          · simp at h
          · cases t <;> try (simp at h; done)
            · exact h
            · simp only at h ⊢
              cases hq2 : parseExpr n 0 q with
              | none => simp [hq2] at h
              | some p2 => simp only [ihE _ _ _ hq2]; simpa only [hq2] using h
      next => simp at h
    · intro m ts r h
      rw [parseExpr_succ] at h
      rw [parseExpr_succ]
      cases hq : parseUnary n ts with
      | none => simp [hq] at h
      | some p =>
        rw [ihU _ _ hq]
        rw [hq] at h
        exact ihR _ _ _ _ h
    · intro m l ts r h
      rw [parseRhs_succ] at h
      rw [parseRhs_succ]
      split at h
      next o r0 =>
        by_cases hm : m ≤ o.prec
        · simp only [hm, if_true] at h ⊢
          cases hq : parseExpr n (o.prec + 1) r0 with
          | none => simp [hq] at h
          | some p =>
            rw [hq] at h
            rw [ihE _ _ _ hq]
            exact ihR _ _ _ _ h
        · simp only [hm, if_false] at h ⊢
          exact h
      next => exact h

theorem parseUnary_mono {n k : Nat} (hk : n ≤ k) {ts : List Tok} {r : Expr × List Tok}
    (h : parseUnary n ts = some r) : parseUnary k ts = some r := by
  induction k, hk using Nat.le_induction with
  | base => exact h
  | succ k _ ih => exact (parse_mono_step k).1 ts r ih

theorem parseExpr_mono {n k : Nat} (hk : n ≤ k) {m : Nat} {ts : List Tok}
    {r : Expr × List Tok} (h : parseExpr n m ts = some r) : parseExpr k m ts = some r := by
  induction k, hk using Nat.le_induction with
  | base => exact h
  | succ k _ ih => exact (parse_mono_step k).2.1 m ts r ih

theorem parseRhs_mono {n k : Nat} (hk : n ≤ k) {m : Nat} {l : Expr} {ts : List Tok}
    {r : Expr × List Tok} (h : parseRhs n m l ts = some r) : parseRhs k m l ts = some r := by
  induction k, hk using Nat.le_induction with
  | base => exact h
  | succ k _ ih => exact (parse_mono_step k).2.2 m l ts r ih

theorem parseRhs_stops (n m : Nat) (l : Expr) (s : List Tok) (hs : stops s = true) :
    parseRhs (n + 1) m l s = some (l, s) := by
  rw [parseRhs_succ]
  rcases s with _ | ⟨t, s⟩
  · rfl
  · cases t <;> first | rfl | simp [stops] at hs

/-- A parse is not disturbed by what follows it, when that starts with a
closing parenthesis or a comma. -/
theorem parse_append_stop (n : Nat) :
    (∀ ts e r s, stops s = true → parseUnary n ts = some (e, r) →
      parseUnary n (ts ++ s) = some (e, r ++ s)) ∧
    (∀ m ts e r s, stops s = true → parseExpr n m ts = some (e, r) →
      parseExpr n m (ts ++ s) = some (e, r ++ s)) ∧
    (∀ m l ts e r s, stops s = true → parseRhs n m l ts = some (e, r) →
      parseRhs n m l (ts ++ s) = some (e, r ++ s)) := by
  induction n with
  | zero => simp [parseUnary, parseExpr, parseRhs]
  | succ n ih =>
    obtain ⟨ihU, ihE, ihR⟩ := ih
    refine ⟨?_, ?_, ?_⟩
    · intro ts e r s hs h
      rw [parseUnary_succ] at h
      rw [parseUnary_succ]
      split at h
      next k r0 =>
        simp only [Option.some.injEq, Prod.mk.injEq] at h
        obtain ⟨rfl, rfl⟩ := h
        rfl
      next x r0 =>
        simp only [Option.some.injEq, Prod.mk.injEq] at h
        obtain ⟨rfl, rfl⟩ := h
        rfl
      next r0 =>
        cases hq : parseUnary n r0 with
        | none => simp [hq] at h
        | some p =>
          obtain ⟨e1, r1⟩ := p
          simp only [hq, Option.some.injEq, Prod.mk.injEq] at h
          obtain ⟨rfl, rfl⟩ := h
          simp only [List.cons_append, ihU _ _ _ _ hs hq]
      next r0 =>
        cases hq : parseUnary n r0 with
        | none => simp [hq] at h
        | some p =>
          obtain ⟨e1, r1⟩ := p
          simp only [hq, Option.some.injEq, Prod.mk.injEq] at h
          obtain ⟨rfl, rfl⟩ := h
          simp only [List.cons_append, ihU _ _ _ _ hs hq]
      next r0 =>
        cases hq : parseExpr n 0 r0 with
        | none => simp [hq] at h
        | some p =>
          obtain ⟨e1, r1⟩ := p
          rw [hq] at h
          rcases r1 with _ | ⟨t, r1⟩
          · simp at h
          · cases t <;> try (simp at h; done)
            simp only [Option.some.injEq, Prod.mk.injEq] at h
            obtain ⟨rfl, rfl⟩ := h
            simp only [List.cons_append, ihE _ _ _ _ _ hs hq]
      next f r0 =>
        cases hq : parseExpr n 0 r0 with
        | none => simp [hq] at h
        | some p =>
          obtain ⟨e1, r1⟩ := p
          rw [hq] at h
          rcases r1 with _ | ⟨t, r1⟩
          · simp at h
          · cases t <;> try (simp at h; done)
            · simp only [Option.some.injEq, Prod.mk.injEq] at h
              obtain ⟨rfl, rfl⟩ := h
              simp only [List.cons_append, ihE _ _ _ _ _ hs hq]
            · simp only at h
              cases hq2 : parseExpr n 0 r1 with
              | none => simp [hq2] at h
              | some p2 =>
                obtain ⟨e2, r2⟩ := p2
                rw [hq2] at h
                rcases r2 with _ | ⟨t, r2⟩
                · simp at h
                · cases t <;> try (simp at h; done)
                  simp only [Option.some.injEq, Prod.mk.injEq] at h
                  obtain ⟨rfl, rfl⟩ := h
                  simp only [List.cons_append, ihE _ _ _ _ _ hs hq, ihE _ _ _ _ _ hs hq2]
      next => simp at h
    · intro m ts e r s hs h
      rw [parseExpr_succ] at h
      rw [parseExpr_succ]
      cases hq : parseUnary n ts with
      | none => simp [hq] at h
      | some p =>
        obtain ⟨e1, r1⟩ := p
        rw [hq] at h
        rw [ihU _ _ _ _ hs hq]
        exact ihR _ _ _ _ _ _ hs h
    · intro m l ts e r s hs h
      rcases ts with _ | ⟨t, ts⟩
      · rw [parseRhs_succ] at h
        simp only [Option.some.injEq, Prod.mk.injEq] at h
        obtain ⟨rfl, rfl⟩ := h
        simpa using parseRhs_stops n m l s hs
      · cases t
        case op o =>
          rw [parseRhs_succ] at h
          rw [List.cons_append, parseRhs_succ]
          by_cases hm : m ≤ o.prec
          · simp only [hm, if_true] at h ⊢
            cases hq : parseExpr n (o.prec + 1) ts with
            | none => simp [hq] at h
            | some p =>
              obtain ⟨e1, r1⟩ := p
              rw [hq] at h
              rw [ihE _ _ _ _ _ hs hq]
              exact ihR _ _ _ _ _ _ hs h
          · simp only [hm, if_false] at h ⊢
            simp only [Option.some.injEq, Prod.mk.injEq] at h
            obtain ⟨rfl, rfl⟩ := h
            rfl
        all_goals
          rw [parseRhs_succ] at h
          rw [List.cons_append, parseRhs_succ]
          simp only [Option.some.injEq, Prod.mk.injEq] at h
          obtain ⟨rfl, rfl⟩ := h
          rfl

/-- The operator/operand pairs that follow `! l` are those that follow `l`. -/
theorem parseRhs_negLeft (n : Nat) :
    ∀ m l ts e r, parseRhs n m l ts = some (e, r) →
      parseRhs n m (negLeft l) ts = some (negLeft e, r) := by
  induction n with
  | zero => simp [parseRhs]
  | succ n ih =>
    intro m l ts e r h
    rw [parseRhs_succ] at h
    rw [parseRhs_succ]
    split at h
    next o r0 =>
      by_cases hm : m ≤ o.prec
      · simp only [hm, if_true] at h ⊢
        cases hq : parseExpr n (o.prec + 1) r0 with
        | none => simp [hq] at h
        | some p =>
          obtain ⟨e1, r1⟩ := p
          rw [hq] at h
          exact ih _ _ _ _ _ h
      · simp only [hm, if_false] at h ⊢
        simp only [Option.some.injEq, Prod.mk.injEq] at h
        obtain ⟨rfl, rfl⟩ := h
        rfl
    next =>
      simp only [Option.some.injEq, Prod.mk.injEq] at h
      obtain ⟨rfl, rfl⟩ := h
      rfl

/-- A unary expression is never a bare binary expression. -/
theorem parseUnary_negLeft {n : Nat} {ts : List Tok} {e : Expr} {r : List Tok}
    (h : parseUnary n ts = some (e, r)) : negLeft e = .not e := by
  cases n with
  | zero => simp [parseUnary] at h
  | succ n =>
    rw [parseUnary_succ] at h
    split at h
    next k r0 =>
      simp only [Option.some.injEq, Prod.mk.injEq] at h
      obtain ⟨rfl, rfl⟩ := h
      rfl
    next x r0 =>
      simp only [Option.some.injEq, Prod.mk.injEq] at h
      obtain ⟨rfl, rfl⟩ := h
      rfl
    next r0 =>
      split at h
      next e1 r1 _ =>
        simp only [Option.some.injEq, Prod.mk.injEq] at h
        obtain ⟨rfl, rfl⟩ := h
        rfl
      next => simp at h
    next r0 =>
      split at h
      next e1 r1 _ =>
        simp only [Option.some.injEq, Prod.mk.injEq] at h
        obtain ⟨rfl, rfl⟩ := h
        rfl
      next => simp at h
    next r0 =>
      split at h
      next e1 r1 _ =>
        simp only [Option.some.injEq, Prod.mk.injEq] at h
        obtain ⟨rfl, rfl⟩ := h
        rfl
      next => simp at h
    next f r0 =>
      split at h
      next e1 r1 _ =>
        simp only [Option.some.injEq, Prod.mk.injEq] at h
        obtain ⟨rfl, rfl⟩ := h
        rfl
      next e1 r1 _ =>
        split at h
        next e2 r2 _ =>
          simp only [Option.some.injEq, Prod.mk.injEq] at h
          obtain ⟨rfl, rfl⟩ := h
          rfl
        next => simp at h
      next => simp at h
    next => simp at h

/-- Writing `!` in front of the tokens of an expression. -/
theorem parseExpr_bang {n m : Nat} {ts : List Tok} {e : Expr} {r : List Tok}
    (h : parseExpr n m ts = some (e, r)) :
    parseExpr (n + 1) m (.bang :: ts) = some (negLeft e, r) := by
  cases n with
  | zero => simp [parseExpr] at h
  | succ n =>
    rw [parseExpr_succ] at h
    rw [parseExpr_succ, parseUnary_succ]
    cases hq : parseUnary n ts with
    | none => simp [hq] at h
    | some p =>
      obtain ⟨u, r1⟩ := p
      rw [hq] at h
      simp only [hq]
      rw [← parseUnary_negLeft hq]
      exact parseRhs_mono (Nat.le_succ n) (parseRhs_negLeft n m u r1 e r h)

theorem parse_eq_some {ts : List Tok} {e : Expr} (h : parse ts = some e) :
    parseExpr (fuelFor ts) 0 ts = some (e, []) := by
  unfold parse at h
  split at h
  next e1 heq =>
    simp only [Option.some.injEq] at h
    rw [heq, h]
  next => simp at h

theorem parse_of_parseExpr {ts : List Tok} {e : Expr}
    (h : parseExpr (fuelFor ts) 0 ts = some (e, [])) : parse ts = some e := by
  unfold parse
  rw [h]

/-- The tokens `( f ( a ) )` parse as the parenthesised call of `f` on `a`. -/
theorem parseExpr_forward1 {n : Nat} (f : Prim) {ts : List Tok} {e : Expr}
    (h : parseExpr n 0 ts = some (e, [])) :
    parseExpr (n + 4) 0 (.lparen :: .fn f :: .lparen :: (ts ++ [.rparen, .rparen])) =
      some (.paren (.call1 f e), []) := by
  have h1 := (parse_append_stop n).2.1 0 ts e [] [.rparen, .rparen] rfl h
  rw [parseExpr_succ, parseUnary_succ]
  simp only
  rw [parseExpr_succ, parseUnary_succ]
  simp only
  rw [h1]
  simp only [List.nil_append]
  rw [parseRhs_stops _ _ _ [.rparen] rfl]
  simp only
  rw [parseRhs_stops _ _ _ [] rfl]

/-- The tokens `( f ( a , b ) )` parse as the parenthesised call of `f` on `a`
and `b`. -/
theorem parseExpr_forward2 {n : Nat} (f : Prim) {ts us : List Tok} {a b : Expr}
    (ha : parseExpr n 0 ts = some (a, [])) (hb : parseExpr n 0 us = some (b, [])) :
    parseExpr (n + 4) 0
        (.lparen :: .fn f :: .lparen :: (ts ++ .comma :: (us ++ [.rparen, .rparen]))) =
      some (.paren (.call2 f a b), []) := by
  have h1 := (parse_append_stop n).2.1 0 ts a [] (.comma :: (us ++ [.rparen, .rparen])) rfl ha
  have h2 := (parse_append_stop n).2.1 0 us b [] [.rparen, .rparen] rfl hb
  rw [parseExpr_succ, parseUnary_succ]
  simp only
  rw [parseExpr_succ, parseUnary_succ]
  simp only
  rw [h1]
  simp only [List.nil_append]
  rw [h2]
  simp only [List.nil_append]
  rw [parseRhs_stops _ _ _ [.rparen] rfl]
  simp only
  rw [parseRhs_stops _ _ _ [] rfl]

/-- The tokens `( f ( a , ! b ) )`: the `!` attaches to the leftmost operand of
`b`. -/
theorem parseExpr_forward2_bang {n : Nat} (f : Prim) {ts us : List Tok} {a b : Expr}
    (ha : parseExpr (n + 1) 0 ts = some (a, [])) (hb : parseExpr n 0 us = some (b, [])) :
    parseExpr (n + 5) 0
        (.lparen :: .fn f :: .lparen :: (ts ++ .comma :: .bang :: (us ++ [.rparen, .rparen]))) =
      some (.paren (.call2 f a (negLeft b)), []) := by
  have h1 := (parse_append_stop (n + 1)).2.1 0 ts a []
    (.comma :: .bang :: (us ++ [.rparen, .rparen])) rfl ha
  have h2 := parseExpr_bang ((parse_append_stop n).2.1 0 us b [] [.rparen, .rparen] rfl hb)
  rw [parseExpr_succ, parseUnary_succ]
  simp only
  rw [parseExpr_succ, parseUnary_succ]
  simp only
  rw [h1]
  simp only [List.nil_append]
  rw [h2]
  simp only [List.nil_append]
  rw [parseRhs_stops _ _ _ [.rparen] rfl]
  simp only
  rw [parseRhs_stops _ _ _ [] rfl]

theorem parse_forward1 (f : Prim) {ts : List Tok} {e : Expr} (h : parse ts = some e) :
    parse (.lparen :: .fn f :: .lparen :: (ts ++ [.rparen, .rparen])) =
      some (.paren (.call1 f e)) := by
  apply parse_of_parseExpr
  refine parseExpr_mono ?_ (parseExpr_forward1 f (parse_eq_some h))
  simp only [fuelFor, List.length_cons, List.length_append, List.length_nil]
  omega

theorem parse_forward2 (f : Prim) {ts us : List Tok} {a b : Expr}
    (ha : parse ts = some a) (hb : parse us = some b) :
    parse (.lparen :: .fn f :: .lparen :: (ts ++ .comma :: (us ++ [.rparen, .rparen]))) =
      some (.paren (.call2 f a b)) := by
  apply parse_of_parseExpr
  have ha' := parseExpr_mono (Nat.le_max_left (fuelFor ts) (fuelFor us)) (parse_eq_some ha)
  have hb' := parseExpr_mono (Nat.le_max_right (fuelFor ts) (fuelFor us)) (parse_eq_some hb)
  refine parseExpr_mono ?_ (parseExpr_forward2 f ha' hb')
  simp only [fuelFor, List.length_cons, List.length_append, List.length_nil]
  omega

theorem parse_forward2_bang (f : Prim) {ts us : List Tok} {a b : Expr}
    (ha : parse ts = some a) (hb : parse us = some b) :
    parse (.lparen :: .fn f :: .lparen :: (ts ++ .comma :: .bang :: (us ++ [.rparen, .rparen]))) =
      some (.paren (.call2 f a (negLeft b))) := by
  apply parse_of_parseExpr
  have ha' := parseExpr_mono
    (Nat.le_succ_of_le (Nat.le_max_left (fuelFor ts) (fuelFor us))) (parse_eq_some ha)
  have hb' := parseExpr_mono (Nat.le_max_right (fuelFor ts) (fuelFor us)) (parse_eq_some hb)
  refine parseExpr_mono ?_ (parseExpr_forward2_bang f ha' hb')
  simp only [fuelFor, List.length_cons, List.length_append, List.length_nil]
  omega

/-- The recursion budget a parse needs is bounded by the number of tokens it
consumes: twice that number for a unary expression, one more for a binary
expression and for the operator/operand pairs. -/
theorem parse_budget (n : Nat) :
    (∀ ts e r, parseUnary n ts = some (e, r) →
      r.length < ts.length ∧
        ∀ k, 2 * (ts.length - r.length) ≤ k → parseUnary k ts = some (e, r)) ∧
    (∀ m ts e r, parseExpr n m ts = some (e, r) →
      r.length < ts.length ∧
        ∀ k, 2 * (ts.length - r.length) + 1 ≤ k → parseExpr k m ts = some (e, r)) ∧
    (∀ m l ts e r, parseRhs n m l ts = some (e, r) →
      r.length ≤ ts.length ∧
        ∀ k, 2 * (ts.length - r.length) + 1 ≤ k → parseRhs k m l ts = some (e, r)) := by
  induction n with
  | zero => simp [parseUnary, parseExpr, parseRhs]
  | succ n ih =>
    obtain ⟨ihU, ihE, ihR⟩ := ih
    refine ⟨?_, ?_, ?_⟩
    · intro ts e r h
      rw [parseUnary_succ] at h
      split at h
      next c r0 =>
        simp only [Option.some.injEq, Prod.mk.injEq] at h
        obtain ⟨rfl, rfl⟩ := h
        refine ⟨by simp, ?_⟩
        intro k hk
        obtain ⟨k, rfl⟩ : ∃ j, k = j + 1 := ⟨k - 1, by simp at hk; omega⟩
        rfl
      next x r0 =>
        simp only [Option.some.injEq, Prod.mk.injEq] at h
        obtain ⟨rfl, rfl⟩ := h
        refine ⟨by simp, ?_⟩
        intro k hk
        obtain ⟨k, rfl⟩ : ∃ j, k = j + 1 := ⟨k - 1, by simp at hk; omega⟩
        rfl
      next r0 =>
        cases hq : parseUnary n r0 with
        | none => simp [hq] at h
        | some p =>
          obtain ⟨e1, r1⟩ := p
          simp only [hq, Option.some.injEq, Prod.mk.injEq] at h
          obtain ⟨rfl, rfl⟩ := h
          obtain ⟨hlen, hfuel⟩ := ihU _ _ _ hq
          refine ⟨by simp; omega, ?_⟩
          intro k hk
          simp only [List.length_cons] at hk
          obtain ⟨k, rfl⟩ : ∃ j, k = j + 1 := ⟨k - 1, by omega⟩
          rw [parseUnary_succ]
          simp only [hfuel k (by omega)]
      next r0 =>
        cases hq : parseUnary n r0 with
        | none => simp [hq] at h
        | some p =>
          obtain ⟨e1, r1⟩ := p
          simp only [hq, Option.some.injEq, Prod.mk.injEq] at h
          obtain ⟨rfl, rfl⟩ := h
          obtain ⟨hlen, hfuel⟩ := ihU _ _ _ hq
          refine ⟨by simp; omega, ?_⟩
          intro k hk
          simp only [List.length_cons] at hk
          obtain ⟨k, rfl⟩ : ∃ j, k = j + 1 := ⟨k - 1, by omega⟩
          rw [parseUnary_succ]
          simp only [hfuel k (by omega)]
      next r0 =>
        cases hq : parseExpr n 0 r0 with
        | none => simp [hq] at h
        | some p =>
          obtain ⟨e1, r1⟩ := p
          rw [hq] at h
          obtain ⟨hlen, hfuel⟩ := ihE _ _ _ _ hq
          rcases r1 with _ | ⟨t, r1⟩
          · simp at h
          · cases t <;> try (simp at h; done)
            simp only [Option.some.injEq, Prod.mk.injEq] at h
            obtain ⟨rfl, rfl⟩ := h
            simp only [List.length_cons] at hlen hfuel
            refine ⟨by simp; omega, ?_⟩
            intro k hk
            simp only [List.length_cons] at hk
            obtain ⟨k, rfl⟩ : ∃ j, k = j + 1 := ⟨k - 1, by omega⟩
            rw [parseUnary_succ]
            simp only [hfuel k (by omega)]
      next f r0 =>
        cases hq : parseExpr n 0 r0 with
        | none => simp [hq] at h
        | some p =>
          obtain ⟨e1, r1⟩ := p
          rw [hq] at h
          obtain ⟨hlen, hfuel⟩ := ihE _ _ _ _ hq
          rcases r1 with _ | ⟨t, r1⟩
          · simp at h
          · cases t <;> try (simp at h; done)
            · simp only [Option.some.injEq, Prod.mk.injEq] at h
              obtain ⟨rfl, rfl⟩ := h
              simp only [List.length_cons] at hlen hfuel
              refine ⟨by simp; omega, ?_⟩
              intro k hk
              simp only [List.length_cons] at hk
              obtain ⟨k, rfl⟩ : ∃ j, k = j + 1 := ⟨k - 1, by omega⟩
              rw [parseUnary_succ]
              simp only [hfuel k (by omega)]
            · simp only at h
              cases hq2 : parseExpr n 0 r1 with
              | none => simp [hq2] at h
              | some p2 =>
                obtain ⟨e2, r2⟩ := p2
                rw [hq2] at h
                obtain ⟨hlen2, hfuel2⟩ := ihE _ _ _ _ hq2
                rcases r2 with _ | ⟨t, r2⟩
                · simp at h
                · cases t <;> try (simp at h; done)
                  simp only [Option.some.injEq, Prod.mk.injEq] at h
                  obtain ⟨rfl, rfl⟩ := h
                  simp only [List.length_cons] at hlen hfuel hlen2 hfuel2
                  refine ⟨by simp; omega, ?_⟩
                  intro k hk
                  simp only [List.length_cons] at hk
                  obtain ⟨k, rfl⟩ : ∃ j, k = j + 1 := ⟨k - 1, by omega⟩
                  rw [parseUnary_succ]
                  simp only [hfuel k (by omega), hfuel2 k (by omega)]
      next => simp at h
    · intro m ts e r h
      rw [parseExpr_succ] at h
      cases hq : parseUnary n ts with
      | none => simp [hq] at h
      | some p =>
        obtain ⟨e1, r1⟩ := p
        rw [hq] at h
        simp only at h
        obtain ⟨hlen, hfuel⟩ := ihU _ _ _ hq
        obtain ⟨hlen2, hfuel2⟩ := ihR _ _ _ _ _ h
        refine ⟨by omega, ?_⟩
        intro k hk
        obtain ⟨k, rfl⟩ : ∃ j, k = j + 1 := ⟨k - 1, by omega⟩
        rw [parseExpr_succ, hfuel k (by omega)]
        exact hfuel2 k (by omega)
    · intro m l ts e r h
      rw [parseRhs_succ] at h
      split at h
      next o r0 =>
        by_cases hm : m ≤ o.prec
        · simp only [hm, if_true] at h
          cases hq : parseExpr n (o.prec + 1) r0 with
          | none => simp [hq] at h
          | some p =>
            obtain ⟨e1, r1⟩ := p
            rw [hq] at h
            simp only at h
            obtain ⟨hlen, hfuel⟩ := ihE _ _ _ _ hq
            obtain ⟨hlen2, hfuel2⟩ := ihR _ _ _ _ _ h
            refine ⟨by simp; omega, ?_⟩
            intro k hk
            simp only [List.length_cons] at hk
            obtain ⟨k, rfl⟩ : ∃ j, k = j + 1 := ⟨k - 1, by omega⟩
            rw [parseRhs_succ]
            simp only [hm, if_true, hfuel k (by omega)]
            exact hfuel2 k (by omega)
        · simp only [hm, if_false, Option.some.injEq, Prod.mk.injEq] at h
          obtain ⟨rfl, rfl⟩ := h
          refine ⟨le_refl _, ?_⟩
          intro k hk
          obtain ⟨k, rfl⟩ : ∃ j, k = j + 1 := ⟨k - 1, by omega⟩
          rw [parseRhs_succ]
          simp only [hm, if_false]
      next hne =>
        simp only [Option.some.injEq, Prod.mk.injEq] at h
        obtain ⟨rfl, rfl⟩ := h
        refine ⟨le_refl _, ?_⟩
        intro k hk
        obtain ⟨k, rfl⟩ : ∃ j, k = j + 1 := ⟨k - 1, by omega⟩
        rw [parseRhs_succ]
        split
        next o r0 => exact absurd rfl (hne o r0)
        next => rfl

/-- The budget of `parse` is enough: a token list that parses as a complete
expression with any budget parses with `parse`. -/
theorem parse_complete {n : Nat} {ts : List Tok} {e : Expr}
    (h : parseExpr n 0 ts = some (e, [])) : parse ts = some e := by
  apply parse_of_parseExpr
  refine ((parse_budget n).2.1 0 ts e [] h).2 _ ?_
  simp only [fuelFor, List.length_nil]
  omega

/-! ## Invocations of the nine definitions -/

theorem expand_forward1 (f : Prim) (ts : List Tok) :
    Define.expand ⟨1, forward1 f⟩ [ts] =
      some (.lparen :: .fn f :: .lparen :: (ts ++ [.rparen, .rparen])) := by
  simp [Define.expand, forward1, Item.subst]

theorem expand_forward2 (f : Prim) (ts us : List Tok) :
    Define.expand ⟨2, forward2 f⟩ [ts, us] =
      some (.lparen :: .fn f :: .lparen :: (ts ++ .comma :: (us ++ [.rparen, .rparen]))) := by
  simp [Define.expand, forward2, Item.subst]

theorem expand_PYRRHIC_PAWN_ATTACKS (ts us : List Tok) :
    PYRRHIC_PAWN_ATTACKS.expand [ts, us] =
      some (.lparen :: .fn .reckless_pawn_attacks :: .lparen ::
        (ts ++ .comma :: .bang :: (us ++ [.rparen, .rparen]))) := by
  simp [Define.expand, PYRRHIC_PAWN_ATTACKS, Item.subst]

/-- An invocation of `( f ( p0 ) )` is the direct call of `f` on the argument. -/
theorem invoke_forward1 {G : Type} (P : Prims G) (f : Prim) (s : State G) {ts : List Tok}
    {e : Expr} (h : parse ts = some e) :
    invoke P ⟨1, forward1 f⟩ [ts] s = eval P (.call1 f e) s := by
  unfold invoke
  rw [expand_forward1]
  simp only [run, parse_forward1 f h]
  rfl

/-- An invocation of `( f ( p0 , p1 ) )` is the direct call of `f` on the two
arguments, in their order. -/
theorem invoke_forward2 {G : Type} (P : Prims G) (f : Prim) (s : State G) {ts us : List Tok}
    {a b : Expr} (ha : parse ts = some a) (hb : parse us = some b) :
    invoke P ⟨2, forward2 f⟩ [ts, us] s = eval P (.call2 f a b) s := by
  unfold invoke
  rw [expand_forward2]
  simp only [run, parse_forward2 f ha hb]
  rfl

/-- An invocation of `PYRRHIC_PAWN_ATTACKS` with arbitrary argument expressions:
the `!` of the replacement list attaches to the leftmost operand of the colour
argument. -/
theorem invoke_PYRRHIC_PAWN_ATTACKS {G : Type} (P : Prims G) (s : State G) {ts us : List Tok}
    {a b : Expr} (ha : parse ts = some a) (hb : parse us = some b) :
    invoke P PYRRHIC_PAWN_ATTACKS [ts, us] s =
      eval P (.call2 .reckless_pawn_attacks a (negLeft b)) s := by
  unfold invoke
  rw [expand_PYRRHIC_PAWN_ATTACKS]
  simp only [run, parse_forward2_bang .reckless_pawn_attacks ha hb]
  rfl

theorem negLeft_of_not_bin {b : Expr} (h : ∀ o l r, b ≠ .bin o l r) : negLeft b = .not b := by
  cases b with
  | bin o l r => exact absurd rfl (h o l r)
  | _ => rfl

/-- A call with one argument appends exactly itself to the log. -/
theorem callPrim1_log {G : Type} (P : Prims G) (f : Prim) (v : Val) (s : State G)
    {w : Val} {s' : State G} (h : callPrim1 P f v s = some (w, s')) :
    s'.log = s.log ++ [f] := by
  cases f <;> cases v <;> simp [callPrim1, ret] at h <;> obtain ⟨_, rfl⟩ := h <;> rfl

/-- A call with two arguments appends exactly itself to the log and leaves the
caller's variables alone. -/
theorem callPrim2_log {G : Type} (P : Prims G) (f : Prim) (v u : Val) (s : State G)
    {w : Val} {s' : State G} (h : callPrim2 P f v u s = some (w, s')) :
    s'.log = s.log ++ [f] ∧ s'.vars = s.vars := by
  cases f <;> cases v <;> cases u <;> simp [callPrim2, ret] at h <;> obtain ⟨_, rfl⟩ := h <;>
    exact ⟨rfl, rfl⟩

theorem toU32_natCast {n : Nat} (h : n < 2 ^ 32) : toU32 (n : Int) = n := by
  unfold toU32
  have : ((n : Int) % 2 ^ 32) = n := Int.emod_eq_of_lt (by omega) (by omega)
  rw [this]
  rfl

theorem toU64_natCast {n : Nat} (h : n < 2 ^ 64) : toU64 (n : Int) = n := by
  unfold toU64
  have : ((n : Int) % 2 ^ 64) = n := Int.emod_eq_of_lt (by omega) (by omega)
  rw [this]
  rfl

theorem toBool_lnot (i : Int) : toBool (lnot i) = decide (i = 0) := by
  unfold toBool lnot
  by_cases h : i = 0 <;> simp [h]

theorem toBool_lnot_lnot (i : Int) : toBool (lnot (lnot i)) = decide (i ≠ 0) := by
  unfold toBool lnot
  by_cases h : i = 0 <;> simp [h]

/-! ## The modelled primitives: bit-level facts -/

namespace Model

theorem bitCount_succ (k v : Nat) :
    bitCount (k + 1) v = (if v % 2 = 1 then 1 else 0) + bitCount k (v / 2) := by
  unfold bitCount
  have hf : ((fun i => v.testBit i) ∘ Nat.succ) = fun i => (v / 2).testBit i := by
    funext i
    simp [Nat.testBit_succ]
  rw [List.range_succ_eq_map, List.filter_cons, List.filter_map, hf, Nat.testBit_zero]
  by_cases h : v % 2 = 1
  · simp [h, Nat.add_comm]
  · simp [h]

theorem count_one_digits (v : Nat) (hv : 0 < v) :
    (Nat.digits 2 v).count 1 = (if v % 2 = 1 then 1 else 0) + (Nat.digits 2 (v / 2)).count 1 := by
  rw [Nat.digits_def' (by norm_num) hv, List.count_cons]
  by_cases h : v % 2 = 1
  · simp [h, Nat.add_comm]
  · have h' : ¬ (1 = v % 2) := fun e => h e.symm
    simp [h, h']

theorem bitCount_eq_count (k : Nat) :
    ∀ v, v < 2 ^ k → bitCount k v = (Nat.digits 2 v).count 1 := by
  induction k with
  | zero =>
    intro v hv
    have : v = 0 := by simpa using hv
    subst this
    simp [bitCount]
  | succ k ih =>
    intro v hv
    rcases Nat.eq_zero_or_pos v with rfl | hpos
    · simp [bitCount]
    · rw [bitCount_succ, count_one_digits v hpos, ih (v / 2) (by omega)]

theorem lsbFrom_spec (v : Nat) : ∀ k i, (∃ j, i ≤ j ∧ j < i + k ∧ v.testBit j = true) →
    v.testBit (lsbFrom v k i) = true ∧ i ≤ lsbFrom v k i ∧ lsbFrom v k i < i + k ∧
      ∀ j, i ≤ j → j < lsbFrom v k i → v.testBit j = false := by
  intro k
  induction k with
  | zero =>
    rintro i ⟨j, h1, h2, _⟩
    omega
  | succ k ih =>
    rintro i ⟨j, h1, h2, h3⟩
    unfold lsbFrom
    by_cases hi : v.testBit i = true
    · rw [if_pos hi]
      exact ⟨hi, le_refl i, by omega, fun j a b => by omega⟩
    · rw [if_neg hi]
      have hj : i + 1 ≤ j := by
        rcases Nat.eq_or_lt_of_le h1 with rfl | h
        · exact absurd h3 hi
        · exact h
      obtain ⟨a, b, c, d⟩ := ih (i + 1) ⟨j, hj, by omega, h3⟩
      refine ⟨a, by omega, by omega, ?_⟩
      intro j' h1' h2'
      rcases Nat.eq_or_lt_of_le h1' with rfl | h
      · simpa using hi
      · exact d j' h h2'

theorem reckless_lsb_spec (v : Nat) (h0 : 0 < v) (hv : v < 2 ^ 64) :
    v.testBit (reckless_lsb v) = true ∧ reckless_lsb v < 64 ∧
      ∀ j, j < reckless_lsb v → v.testBit j = false := by
  obtain ⟨j, hj⟩ := Nat.ne_zero_implies_bit_true (Nat.pos_iff_ne_zero.mp h0)
  have hj64 : j < 64 := by
    by_contra hge
    have : v < 2 ^ j := lt_of_lt_of_le hv (Nat.pow_le_pow_right (by norm_num) (by omega))
    rw [Nat.testBit_lt_two_pow this] at hj
    exact Bool.noConfusion hj
  obtain ⟨a, _, c, d⟩ := lsbFrom_spec v 64 0 ⟨j, Nat.zero_le j, by omega, hj⟩
  exact ⟨a, by simpa [reckless_lsb] using c, fun j' h => d j' (Nat.zero_le j') h⟩

/-- A number whose lowest set bit is `i` is `2 ^ i * (2 * k + 1)`. -/
theorem eq_pow_mul_odd (v i : Nat) (hi : v.testBit i = true)
    (hlow : ∀ j, j < i → v.testBit j = false) : ∃ k, v = 2 ^ i * (2 * k + 1) := by
  have hmod : v % 2 ^ i = 0 := by
    apply Nat.eq_of_testBit_eq
    intro j
    rw [Nat.testBit_mod_two_pow, Nat.zero_testBit]
    by_cases hj : j < i
    · simp [hlow j hj]
    · simp [hj]
  have hodd : v / 2 ^ i % 2 = 1 := by
    have := hi
    rw [Nat.testBit_to_div_mod] at this
    simpa using this
  refine ⟨v / 2 ^ i / 2, ?_⟩
  have h1 := Nat.div_add_mod v (2 ^ i)
  have h2 := Nat.div_add_mod (v / 2 ^ i) 2
  rw [hmod] at h1
  rw [hodd] at h2
  rw [h2]
  omega

theorem testBit_pow_mul (i q j : Nat) :
    (2 ^ i * q).testBit j = (decide (i ≤ j) && q.testBit (j - i)) := by
  have := Nat.testBit_mul_pow_two_add q (Nat.two_pow_pos i) j
  rw [Nat.add_zero] at this
  rw [this]
  by_cases h : j < i
  · simp [h, Nat.not_le.mpr h]
  · simp [h, Nat.le_of_not_lt h]

theorem testBit_double (k m : Nat) :
    (2 * k).testBit m = (decide (0 < m) && (2 * k + 1).testBit m) := by
  cases m with
  | zero => simp
  | succ m =>
    rw [Nat.testBit_succ, Nat.testBit_succ]
    have h1 : 2 * k / 2 = k := by omega
    have h2 : (2 * k + 1) / 2 = k := by omega
    simp [h1, h2]

theorem pow_mul_odd_and_pred (i k : Nat) :
    (2 ^ i * (2 * k + 1)) &&& (2 ^ i * (2 * k + 1) - 1) = 2 ^ i * (2 * k) := by
  have hp := Nat.two_pow_pos i
  have hpred : 2 ^ i * (2 * k + 1) - 1 = 2 ^ i * (2 * k) + (2 ^ i - 1) := by
    rw [Nat.mul_add, Nat.mul_one]
    omega
  apply Nat.eq_of_testBit_eq
  intro j
  rw [Nat.testBit_and, hpred, Nat.testBit_mul_pow_two_add _ (by omega), testBit_pow_mul,
    testBit_pow_mul, Nat.testBit_two_pow_sub_one]
  by_cases h : j < i
  · simp [h, Nat.not_le.mpr h]
  · simp only [h, if_false, Nat.le_of_not_lt h, decide_True, Bool.true_and]
    rw [testBit_double]
    cases (2 * k + 1).testBit (j - i) <;> simp

/-- What `reckless_poplsb` leaves in the bitboard. -/
theorem reckless_poplsb_spec (v : Nat) (h0 : 0 < v) (hv : v < 2 ^ 64) :
    (reckless_poplsb v).2 = v &&& (v - 1) ∧
    v.testBit (reckless_lsb v) = true ∧
    (∀ j, j < reckless_lsb v → v.testBit j = false) ∧
    (∀ j, (reckless_poplsb v).2.testBit j = (v.testBit j && decide (j ≠ reckless_lsb v))) := by
  obtain ⟨hi, _, hlow⟩ := reckless_lsb_spec v h0 hv
  obtain ⟨k, hk⟩ := eq_pow_mul_odd v _ hi hlow
  have hclr : (reckless_poplsb v).2 = 2 ^ reckless_lsb v * (2 * k) := by
    simp only [reckless_poplsb, clearBit, hi, if_true]
    generalize reckless_lsb v = i at hk
    subst hk
    rw [Nat.mul_add, Nat.mul_one]
    omega
  refine ⟨?_, hi, hlow, ?_⟩
  · rw [hclr]
    generalize reckless_lsb v = i at hk
    subst hk
    exact (pow_mul_odd_and_pred i k).symm
  · intro j
    rw [hclr]
    generalize reckless_lsb v = i at hk
    subst hk
    rw [testBit_pow_mul, testBit_pow_mul, testBit_double]
    by_cases h : i ≤ j
    · by_cases h2 : j = i
      · subst h2; simp
      · have : 0 < j - i := by omega
        simp [h, h2, this]
    · have : j ≠ i := by omega
      simp [h, this]

theorem bitCount_le (k v : Nat) : bitCount k v ≤ k := by
  unfold bitCount
  exact le_trans (List.length_filter_le _ _) (by simp)

theorem queen_eq_bishop_or_rook (sq occ : Nat) :
    reckless_queen_attacks sq occ =
      reckless_bishop_attacks sq occ ||| reckless_rook_attacks sq occ := by
  simp only [reckless_queen_attacks, reckless_bishop_attacks, reckless_rook_attacks, slide,
    List.foldl, Nat.zero_or]
  ac_rfl

end Model

/-! ## The adaptation layer -/

/-- C1: for every square `sq` and every boolean colour `c`, held by the variables
`x` and `y`, the invocation `PYRRHIC_PAWN_ATTACKS(x, y)` is the call
`reckless_pawn_attacks(x, !y)`: the primitive receives the square unchanged and
the negated colour. With the constant `true` (1) it receives `false`, and with
`false` (0) it receives `true`. -/
theorem PYRRHIC_PAWN_ATTACKS_negates_colour {G : Type} (P : Prims G) (s : State G)
    (x y : String) (sq : Nat) (c : Bool) (hsq : sq < 2 ^ 32) (hx : s.vars x = sq)
    (hy : s.vars y = if c then 1 else 0) :
    invoke P PYRRHIC_PAWN_ATTACKS [[.ident x], [.ident y]] s =
        eval P (.call2 .reckless_pawn_attacks (.var x) (.not (.var y))) s ∧
    invoke P PYRRHIC_PAWN_ATTACKS [[.ident x], [.ident y]] s =
        ret .reckless_pawn_attacks s (P.reckless_pawn_attacks s.glob sq (!c)) ∧
    invoke P PYRRHIC_PAWN_ATTACKS [[.ident x], [.num 1]] s =
        ret .reckless_pawn_attacks s (P.reckless_pawn_attacks s.glob sq false) ∧
    invoke P PYRRHIC_PAWN_ATTACKS [[.ident x], [.num 0]] s =
        ret .reckless_pawn_attacks s (P.reckless_pawn_attacks s.glob sq true) := by
  have e1 : invoke P PYRRHIC_PAWN_ATTACKS [[.ident x], [.ident y]] s =
      ret .reckless_pawn_attacks s
        (P.reckless_pawn_attacks s.glob (toU32 (s.vars x)) (toBool (lnot (s.vars y)))) := rfl
  have e2 : invoke P PYRRHIC_PAWN_ATTACKS [[.ident x], [.num 1]] s =
      ret .reckless_pawn_attacks s
        (P.reckless_pawn_attacks s.glob (toU32 (s.vars x)) false) := rfl
  have e3 : invoke P PYRRHIC_PAWN_ATTACKS [[.ident x], [.num 0]] s =
      ret .reckless_pawn_attacks s
        (P.reckless_pawn_attacks s.glob (toU32 (s.vars x)) true) := rfl
  have hc : toBool (lnot (s.vars y)) = !c := by
    rw [hy, toBool_lnot]
    cases c <;> simp
  rw [hx, toU32_natCast hsq] at e1 e2 e3
  rw [hc] at e1
  exact ⟨rfl, e1, e2, e3⟩

/-- C1, at a concrete input: with `sq = 27` and `c = 1` the stub receives the
square 27 and the flag 0. -/
theorem PYRRHIC_PAWN_ATTACKS_negates_colour_witness :
    ((27 : Nat) < 2 ^ 32 ∧ sample.vars "sq" = (27 : Nat) ∧
      sample.vars "c" = if true then 1 else 0) ∧
    observe (invoke stub PYRRHIC_PAWN_ATTACKS [[.ident "sq"], [.ident "c"]] sample) =
      some (.int 0, [(.reckless_pawn_attacks, [27, 0])], 2, 12, [.reckless_pawn_attacks]) := by
  refine ⟨⟨by decide, by decide, by decide⟩, ?_⟩
  rw [(PYRRHIC_PAWN_ATTACKS_negates_colour stub sample "sq" "c" 27 true
    (by decide) (by decide) (by decide)).2.1]
  rfl

/-- C2: for every value of the argument variables, each of `PYRRHIC_POPCOUNT`,
`PYRRHIC_LSB`, `PYRRHIC_KNIGHT_ATTACKS`, `PYRRHIC_BISHOP_ATTACKS`,
`PYRRHIC_ROOK_ATTACKS`, `PYRRHIC_QUEEN_ATTACKS` and `PYRRHIC_KING_ATTACKS` is one
call of the primitive of the same name on the same arguments (converted to the
parameter types of the prototype, as in any call), square first and occupancy
second, and yields that primitive's result. -/
theorem tbconfig_forwards_arguments_unchanged {G : Type} (P : Prims G) (s : State G)
    (x sq occ : String) :
    invoke P PYRRHIC_POPCOUNT [[.ident x]] s =
        ret .reckless_popcount s (P.reckless_popcount s.glob (toU64 (s.vars x))) ∧
    invoke P PYRRHIC_LSB [[.ident x]] s =
        ret .reckless_lsb s (P.reckless_lsb s.glob (toU64 (s.vars x))) ∧
    invoke P PYRRHIC_KNIGHT_ATTACKS [[.ident sq]] s =
        ret .reckless_knight_attacks s (P.reckless_knight_attacks s.glob (toU32 (s.vars sq))) ∧
    invoke P PYRRHIC_BISHOP_ATTACKS [[.ident sq], [.ident occ]] s =
        ret .reckless_bishop_attacks s
          (P.reckless_bishop_attacks s.glob (toU32 (s.vars sq)) (toU64 (s.vars occ))) ∧
    invoke P PYRRHIC_ROOK_ATTACKS [[.ident sq], [.ident occ]] s =
        ret .reckless_rook_attacks s
          (P.reckless_rook_attacks s.glob (toU32 (s.vars sq)) (toU64 (s.vars occ))) ∧
    invoke P PYRRHIC_QUEEN_ATTACKS [[.ident sq], [.ident occ]] s =
        ret .reckless_queen_attacks s
          (P.reckless_queen_attacks s.glob (toU32 (s.vars sq)) (toU64 (s.vars occ))) ∧
    invoke P PYRRHIC_KING_ATTACKS [[.ident sq]] s =
        ret .reckless_king_attacks s (P.reckless_king_attacks s.glob (toU32 (s.vars sq))) ∧
    (∀ n : Nat, n < 2 ^ 32 → toU32 (n : Int) = n) ∧
    (∀ n : Nat, n < 2 ^ 64 → toU64 (n : Int) = n) :=
  ⟨rfl, rfl, rfl, rfl, rfl, rfl, rfl, fun _ h => toU32_natCast h, fun _ h => toU64_natCast h⟩

/-- C3, as stated, fails: for the bitboard variable `b`, the expansion of
`PYRRHIC_POPLSB(b)` is `(reckless_poplsb(b))`, without `&`. It is not the call
`reckless_poplsb(&b)`: that call hands the primitive the bitboard 12 held by `b`
and `b` is modified (the stub leaves 8), while the invocation hands the
primitive an integer where the prototype wants a pointer, and has no value. -/
theorem PYRRHIC_POPLSB_takes_no_address :
    invoke stub PYRRHIC_POPLSB [[.ident "b"]] sample ≠
      eval stub (.call1 .reckless_poplsb (.addr (.var "b"))) sample ∧
    PYRRHIC_POPLSB.expand [[.ident "b"]] =
      some [.lparen, .fn .reckless_poplsb, .lparen, .ident "b", .rparen, .rparen] ∧
    (PYRRHIC_POPLSB.expand [[.ident "b"]]).bind parse =
      some (.paren (.call1 .reckless_poplsb (.var "b"))) ∧
    observe (invoke stub PYRRHIC_POPLSB [[.ident "b"]] sample) = none ∧
    observe (eval stub (.call1 .reckless_poplsb (.addr (.var "b"))) sample) =
      some (.int 0, [(.reckless_poplsb, [12])], 2, 8, [.reckless_poplsb]) := by
  refine ⟨?_, rfl, rfl, rfl, rfl⟩
  intro h
  have h' := congrArg Option.isSome h
  revert h'
  decide

/-- C3, amended: `PYRRHIC_POPLSB(x)` is `reckless_poplsb(x)`, the argument
forwarded as it is written. The argument must itself be a pointer to a bitboard:
for the invocation `PYRRHIC_POPLSB(&b)` the primitive receives the bitboard held
by `b`, and `b` afterwards holds what the primitive left there; no other
variable changes. -/
theorem PYRRHIC_POPLSB_forwards_pointer {G : Type} (P : Prims G) (s : State G)
    (ts : List Tok) (e : Expr) (b : String) (h : parse ts = some e) :
    PYRRHIC_POPLSB.expand [ts] =
        some (.lparen :: .fn .reckless_poplsb :: .lparen :: (ts ++ [.rparen, .rparen])) ∧
    invoke P PYRRHIC_POPLSB [ts] s = eval P (.call1 .reckless_poplsb e) s ∧
    invoke P PYRRHIC_POPLSB [[.op .band, .ident b]] s =
        some (.int (P.reckless_poplsb s.glob (toU64 (s.vars b))).1,
          ⟨(P.reckless_poplsb s.glob (toU64 (s.vars b))).2.2,
           Function.update s.vars b (P.reckless_poplsb s.glob (toU64 (s.vars b))).2.1,
           s.log ++ [.reckless_poplsb]⟩) :=
  ⟨expand_forward1 .reckless_poplsb ts, invoke_forward1 P .reckless_poplsb s h, rfl⟩

/-- C3, amended, at a concrete input: `PYRRHIC_POPLSB(&b)` with `b = 12` hands the
stub the bitboard 12, and `b` holds 8 afterwards. -/
theorem PYRRHIC_POPLSB_forwards_pointer_witness :
    parse [.op .band, .ident "b"] = some (.addr (.var "b")) ∧
    observe (invoke stub PYRRHIC_POPLSB [[.op .band, .ident "b"]] sample) =
      some (.int 0, [(.reckless_poplsb, [12])], 2, 8, [.reckless_poplsb]) := by
  refine ⟨rfl, ?_⟩
  rw [(PYRRHIC_POPLSB_forwards_pointer stub sample [.op .band, .ident "b"]
    (.addr (.var "b")) "b" rfl).2.1]
  rfl

/-! ## The primitives behind the adaptation layer -/

/-- C4: for every square and every occupancy, `reckless_queen_attacks` is the
bitwise OR of `reckless_bishop_attacks` and `reckless_rook_attacks`; so the value
of `PYRRHIC_QUEEN_ATTACKS(x, o)` is the OR of the values of
`PYRRHIC_BISHOP_ATTACKS(x, o)` and `PYRRHIC_ROOK_ATTACKS(x, o)`. -/
theorem reckless_queen_attacks_union {G : Type} (pawn : Nat → Bool → Nat) (s : State G)
    (x o : String) (sq occ : Nat) :
    Model.reckless_queen_attacks sq occ =
        Model.reckless_bishop_attacks sq occ ||| Model.reckless_rook_attacks sq occ ∧
    (invoke (Model.prims G pawn) PYRRHIC_BISHOP_ATTACKS [[.ident x], [.ident o]] s).map Prod.fst =
        some (.int (Model.reckless_bishop_attacks (toU32 (s.vars x)) (toU64 (s.vars o)))) ∧
    (invoke (Model.prims G pawn) PYRRHIC_ROOK_ATTACKS [[.ident x], [.ident o]] s).map Prod.fst =
        some (.int (Model.reckless_rook_attacks (toU32 (s.vars x)) (toU64 (s.vars o)))) ∧
    (invoke (Model.prims G pawn) PYRRHIC_QUEEN_ATTACKS [[.ident x], [.ident o]] s).map Prod.fst =
        some (.int ((Model.reckless_bishop_attacks (toU32 (s.vars x)) (toU64 (s.vars o)) |||
          Model.reckless_rook_attacks (toU32 (s.vars x)) (toU64 (s.vars o)) : Nat))) := by
  refine ⟨Model.queen_eq_bishop_or_rook sq occ, rfl, rfl, ?_⟩
  rw [← Model.queen_eq_bishop_or_rook]
  rfl

/-- C5: for every 64-bit value `v`, `reckless_popcount v` is the number of digits 1
in the binary representation of `v`; it is at most 64, it is 0 for 0 and 64 for
`0xFFFFFFFFFFFFFFFF`; and it is the value of `PYRRHIC_POPCOUNT(x)` when `x`
holds `v`. -/
theorem reckless_popcount_counts_set_bits {G : Type} (pawn : Nat → Bool → Nat) (s : State G)
    (x : String) (v : Nat) (hv : v < 2 ^ 64) (hx : s.vars x = v) :
    Model.reckless_popcount v = (Nat.digits 2 v).count 1 ∧
    Model.reckless_popcount v ≤ 64 ∧
    Model.reckless_popcount 0 = 0 ∧
    Model.reckless_popcount 0xFFFFFFFFFFFFFFFF = 64 ∧
    (invoke (Model.prims G pawn) PYRRHIC_POPCOUNT [[.ident x]] s).map Prod.fst =
      some (.int ((Nat.digits 2 v).count 1 : Nat)) := by
  have h1 : Model.reckless_popcount v = (Nat.digits 2 v).count 1 :=
    Model.bitCount_eq_count 64 v hv
  refine ⟨h1, Model.bitCount_le 64 v, by decide, by decide, ?_⟩
  have e : (invoke (Model.prims G pawn) PYRRHIC_POPCOUNT [[.ident x]] s).map Prod.fst =
      some (.int (Model.reckless_popcount (toU64 (s.vars x)))) := rfl
  rw [e, hx, toU64_natCast hv, h1]

/-- C5, at a concrete input: 12 is binary 1100 and has two set bits. -/
theorem reckless_popcount_counts_set_bits_witness :
    ((12 : Nat) < 2 ^ 64 ∧ sample.vars "b" = (12 : Nat)) ∧
    Model.reckless_popcount 12 = (Nat.digits 2 12).count 1 ∧ Model.reckless_popcount 12 = 2 :=
  ⟨⟨by decide, by decide⟩,
   (reckless_popcount_counts_set_bits (fun _ _ => 0) sample "b" 12 (by decide) (by decide)).1,
   by decide⟩

/-- C6: for every nonzero 64-bit value `v` in the bitboard given to
`reckless_poplsb`, the bitboard afterwards is `v & (v - 1)`: the bit at the
index of the lowest set bit of `v` was set, no lower bit was, that bit is now
clear and every other bit is as before. Through `PYRRHIC_POPLSB(&b)`, the
variable `b` receives that value and no other variable changes. -/
theorem reckless_poplsb_clears_lowest_set_bit {G : Type} (pawn : Nat → Bool → Nat)
    (s : State G) (b : String) (v : Nat) (h0 : 0 < v) (hv : v < 2 ^ 64) (hb : s.vars b = v) :
    (Model.reckless_poplsb v).2 = v &&& (v - 1) ∧
    v.testBit (Model.reckless_lsb v) = true ∧
    (∀ j, j < Model.reckless_lsb v → v.testBit j = false) ∧
    (∀ j, (Model.reckless_poplsb v).2.testBit j =
      (v.testBit j && decide (j ≠ Model.reckless_lsb v))) ∧
    (invoke (Model.prims G pawn) PYRRHIC_POPLSB [[.op .band, .ident b]] s).map
        (fun r => r.2.vars) =
      some (Function.update s.vars b ((v &&& (v - 1) : Nat) : Int)) := by
  obtain ⟨h1, h2, h3, h4⟩ := Model.reckless_poplsb_spec v h0 hv
  refine ⟨h1, h2, h3, h4, ?_⟩
  have e : (invoke (Model.prims G pawn) PYRRHIC_POPLSB [[.op .band, .ident b]] s).map
      (fun r => r.2.vars) =
      some (Function.update s.vars b
        ((Model.reckless_poplsb (toU64 (s.vars b))).2 : Int)) := rfl
  rw [e, hb, toU64_natCast hv, h1]

/-- C6, at a concrete input: 12 is binary 1100, its lowest set bit has index 2, and
8 is left. -/
theorem reckless_poplsb_clears_lowest_set_bit_witness :
    ((0 : Nat) < 12 ∧ (12 : Nat) < 2 ^ 64 ∧ sample.vars "b" = (12 : Nat)) ∧
    (Model.reckless_poplsb 12).2 = 12 &&& (12 - 1) ∧ (Model.reckless_poplsb 12).2 = 8 ∧
    Model.reckless_lsb 12 = 2 :=
  ⟨⟨by decide, by decide, by decide⟩,
   (reckless_poplsb_clears_lowest_set_bit (fun _ _ => 0) sample "b" 12
     (by decide) (by decide) (by decide)).1,
   by decide, by decide⟩

/-- C7: the knight and king attack bitboards are functions of the square alone.
Under any two global states `g1`, `g2` the primitives return the same bitboard
for the same square, and `PYRRHIC_KNIGHT_ATTACKS(x)` and
`PYRRHIC_KING_ATTACKS(x)` have the same value, which depends on the value of `x`
only. -/
theorem knight_king_attacks_ignore_board {G : Type} (pawn : Nat → Bool → Nat) (g1 g2 : G)
    (vars : String → Int) (log1 log2 : List Prim) (x : String) :
    (∀ sq, ((Model.prims G pawn).reckless_knight_attacks g1 sq).1 =
      ((Model.prims G pawn).reckless_knight_attacks g2 sq).1) ∧
    (∀ sq, ((Model.prims G pawn).reckless_king_attacks g1 sq).1 =
      ((Model.prims G pawn).reckless_king_attacks g2 sq).1) ∧
    (invoke (Model.prims G pawn) PYRRHIC_KNIGHT_ATTACKS [[.ident x]] ⟨g1, vars, log1⟩).map
        Prod.fst =
      (invoke (Model.prims G pawn) PYRRHIC_KNIGHT_ATTACKS [[.ident x]] ⟨g2, vars, log2⟩).map
        Prod.fst ∧
    (invoke (Model.prims G pawn) PYRRHIC_KNIGHT_ATTACKS [[.ident x]] ⟨g1, vars, log1⟩).map
        Prod.fst =
      some (.int (Model.reckless_knight_attacks (toU32 (vars x)))) ∧
    (invoke (Model.prims G pawn) PYRRHIC_KING_ATTACKS [[.ident x]] ⟨g1, vars, log1⟩).map
        Prod.fst =
      (invoke (Model.prims G pawn) PYRRHIC_KING_ATTACKS [[.ident x]] ⟨g2, vars, log2⟩).map
        Prod.fst ∧
    (invoke (Model.prims G pawn) PYRRHIC_KING_ATTACKS [[.ident x]] ⟨g1, vars, log1⟩).map
        Prod.fst =
      some (.int (Model.reckless_king_attacks (toU32 (vars x)))) :=
  ⟨fun _ => rfl, fun _ => rfl, rfl, rfl, rfl, rfl⟩

/-! ## One call per invocation -/

/-- C8, at a failing input: in `PYRRHIC_PAWN_ATTACKS(sq, a && reckless_poplsb(&b))`
with `a = 2` and `b = 12` the argument expression is not evaluated exactly once.
Evaluated once as a whole, it calls `reckless_poplsb` on `b`, which the stub
records, leaving 8 in `b`. The replacement list writes `!c` without
parentheses, so the expansion is
`(reckless_pawn_attacks(sq, !a && reckless_poplsb(&b)))`: it stops at `!a`,
which is 0, `reckless_poplsb` is not called and `b` keeps 12. -/
theorem PYRRHIC_PAWN_ATTACKS_argument_call_skipped :
    invoke stub PYRRHIC_PAWN_ATTACKS [[.ident "sq"],
        [.ident "a", .op .land, .fn .reckless_poplsb, .lparen, .op .band, .ident "b", .rparen]]
        sample ≠
      eval stub (.call2 .reckless_pawn_attacks (.var "sq")
        (.not (.paren (.bin .land (.var "a") (.call1 .reckless_poplsb (.addr (.var "b")))))))
        sample ∧
    parse [.ident "a", .op .land, .fn .reckless_poplsb, .lparen, .op .band, .ident "b", .rparen] =
      some (.bin .land (.var "a") (.call1 .reckless_poplsb (.addr (.var "b")))) ∧
    observe (invoke stub PYRRHIC_PAWN_ATTACKS [[.ident "sq"],
        [.ident "a", .op .land, .fn .reckless_poplsb, .lparen, .op .band, .ident "b", .rparen]]
        sample) =
      some (.int 0, [(.reckless_pawn_attacks, [27, 0])], 2, 12, [.reckless_pawn_attacks]) ∧
    observe (eval stub (.call2 .reckless_pawn_attacks (.var "sq")
        (.not (.paren (.bin .land (.var "a") (.call1 .reckless_poplsb (.addr (.var "b")))))))
        sample) =
      some (.int 0, [(.reckless_poplsb, [12]), (.reckless_pawn_attacks, [27, 1])], 2, 8,
        [.reckless_poplsb, .reckless_pawn_attacks]) := by
  refine ⟨?_, rfl, rfl, rfl⟩
  intro h
  have h' := congrArg (fun r => r.map (fun p => p.2.log)) h
  revert h'
  decide

/-- What holds of every invocation, for argument expressions `a` and `b` of the
fragment (which has no conditional operator): every definition of `tbconfig.h`
names each of its parameters exactly once and exactly one primitive; an
invocation of a forwarding definition is the direct call of its primitive, the
arguments evaluated once each, then the primitive called once; the same holds
for `PYRRHIC_PAWN_ATTACKS` and the negated colour when the colour argument `b`
is not a bare binary expression; a call appends exactly itself to the log; and
for every colour argument `PYRRHIC_PAWN_ATTACKS` is one call of
`reckless_pawn_attacks` whose first argument is the square argument. -/
theorem tbconfig_single_call {G : Type} (P : Prims G) (s : State G) (ts us : List Tok)
    (a b : Expr) (ha : parse ts = some a) (hb : parse us = some b) :
    (∀ d ∈ tbconfig, (∀ i, i < d.arity → d.body.count (.param i) = 1) ∧
      (d.body.filter Item.isParam).length = d.arity ∧
      (d.body.filter Item.isFn).length = 1) ∧
    invoke P PYRRHIC_POPCOUNT [ts] s = eval P (.call1 .reckless_popcount a) s ∧
    invoke P PYRRHIC_LSB [ts] s = eval P (.call1 .reckless_lsb a) s ∧
    invoke P PYRRHIC_POPLSB [ts] s = eval P (.call1 .reckless_poplsb a) s ∧
    invoke P PYRRHIC_KNIGHT_ATTACKS [ts] s = eval P (.call1 .reckless_knight_attacks a) s ∧
    invoke P PYRRHIC_KING_ATTACKS [ts] s = eval P (.call1 .reckless_king_attacks a) s ∧
    invoke P PYRRHIC_BISHOP_ATTACKS [ts, us] s =
      eval P (.call2 .reckless_bishop_attacks a b) s ∧
    invoke P PYRRHIC_ROOK_ATTACKS [ts, us] s = eval P (.call2 .reckless_rook_attacks a b) s ∧
    invoke P PYRRHIC_QUEEN_ATTACKS [ts, us] s = eval P (.call2 .reckless_queen_attacks a b) s ∧
    ((∀ o l r, b ≠ .bin o l r) →
      invoke P PYRRHIC_PAWN_ATTACKS [ts, us] s =
        eval P (.call2 .reckless_pawn_attacks a (.not b)) s) ∧
    (∀ f v s1 w s2, callPrim1 P f v s1 = some (w, s2) → s2.log = s1.log ++ [f]) ∧
    (∀ f v u s1 w s2, callPrim2 P f v u s1 = some (w, s2) →
      s2.log = s1.log ++ [f] ∧ s2.vars = s1.vars) ∧
    (∃ c, invoke P PYRRHIC_PAWN_ATTACKS [ts, us] s =
      eval P (.call2 .reckless_pawn_attacks a c) s) := by
  refine ⟨by decide, invoke_forward1 P _ s ha, invoke_forward1 P _ s ha,
    invoke_forward1 P _ s ha, invoke_forward1 P _ s ha, invoke_forward1 P _ s ha,
    invoke_forward2 P _ s ha hb, invoke_forward2 P _ s ha hb, invoke_forward2 P _ s ha hb,
    ?_, fun f v s1 w s2 h => callPrim1_log P f v s1 h,
    fun f v u s1 w s2 h => callPrim2_log P f v u s1 h,
    ⟨negLeft b, invoke_PYRRHIC_PAWN_ATTACKS P s ha hb⟩⟩
  intro hnb
  rw [invoke_PYRRHIC_PAWN_ATTACKS P s ha hb, negLeft_of_not_bin hnb]

/-- An instance of `tbconfig_single_call`: `PYRRHIC_BISHOP_ATTACKS(sq,
reckless_poplsb(&b))` evaluates its second argument once, before its own call:
the stub records `reckless_poplsb` on 12, then `reckless_bishop_attacks` on the
square 27 and the value 0 of the argument. -/
theorem tbconfig_single_call_witness :
    (parse [.ident "sq"] = some (.var "sq") ∧
      parse [.fn .reckless_poplsb, .lparen, .op .band, .ident "b", .rparen] =
        some (.call1 .reckless_poplsb (.addr (.var "b")))) ∧
    observe (invoke stub PYRRHIC_BISHOP_ATTACKS [[.ident "sq"],
        [.fn .reckless_poplsb, .lparen, .op .band, .ident "b", .rparen]] sample) =
      some (.int 0, [(.reckless_poplsb, [12]), (.reckless_bishop_attacks, [27, 0])], 2, 8,
        [.reckless_poplsb, .reckless_bishop_attacks]) := by
  refine ⟨⟨rfl, rfl⟩, ?_⟩
  rw [(tbconfig_single_call stub sample [.ident "sq"]
    [.fn .reckless_poplsb, .lparen, .op .band, .ident "b", .rparen] (.var "sq")
    (.call1 .reckless_poplsb (.addr (.var "b"))) rfl rfl).2.2.2.2.2.2.1]
  rfl

/-! ## The colour argument -/

/-- C9, at failing inputs: the replacement list writes `!c` without parentheses, so
for a colour argument with a binary operator at top level the `!` negates the
left operand only. With `a = 2`, `c = 1` and `z = 0`:
`a & 1` is 0, its negation is 1, but `!a & 1` is 0;
`a == c` is 0, its negation is 1, but `!a == c` is 0;
`a ^ 1` is 3, its negation is 0, but `!a ^ 1` is 1;
`z || c` is 1, its negation is 0, but `!z || c` is 1.
In each case the stub receives the other flag than the negation of the
argument. -/
theorem PYRRHIC_PAWN_ATTACKS_misbinds_compound_colour :
    ((PYRRHIC_PAWN_ATTACKS.expand [[.ident "sq"], [.ident "a", .op .band, .num 1]]).bind parse =
      some (.paren (.call2 .reckless_pawn_attacks (.var "sq")
        (.bin .band (.not (.var "a")) (.num 1))))) ∧
    (observe (invoke stub PYRRHIC_PAWN_ATTACKS [[.ident "sq"], [.ident "a", .op .band, .num 1]]
        sample) =
      some (.int 0, [(.reckless_pawn_attacks, [27, 0])], 2, 12, [.reckless_pawn_attacks]) ∧
     observe (eval stub (.call2 .reckless_pawn_attacks (.var "sq")
        (.not (.paren (.bin .band (.var "a") (.num 1))))) sample) =
      some (.int 0, [(.reckless_pawn_attacks, [27, 1])], 2, 12, [.reckless_pawn_attacks])) ∧
    (observe (invoke stub PYRRHIC_PAWN_ATTACKS [[.ident "sq"], [.ident "a", .op .eq, .ident "c"]]
        sample) =
      some (.int 0, [(.reckless_pawn_attacks, [27, 0])], 2, 12, [.reckless_pawn_attacks]) ∧
     observe (eval stub (.call2 .reckless_pawn_attacks (.var "sq")
        (.not (.paren (.bin .eq (.var "a") (.var "c"))))) sample) =
      some (.int 0, [(.reckless_pawn_attacks, [27, 1])], 2, 12, [.reckless_pawn_attacks])) ∧
    (observe (invoke stub PYRRHIC_PAWN_ATTACKS [[.ident "sq"], [.ident "a", .op .bxor, .num 1]]
        sample) =
      some (.int 0, [(.reckless_pawn_attacks, [27, 1])], 2, 12, [.reckless_pawn_attacks]) ∧
     observe (eval stub (.call2 .reckless_pawn_attacks (.var "sq")
        (.not (.paren (.bin .bxor (.var "a") (.num 1))))) sample) =
      some (.int 0, [(.reckless_pawn_attacks, [27, 0])], 2, 12, [.reckless_pawn_attacks])) ∧
    (observe (invoke stub PYRRHIC_PAWN_ATTACKS [[.ident "sq"], [.ident "z", .op .lor, .ident "c"]]
        sample) =
      some (.int 0, [(.reckless_pawn_attacks, [27, 1])], 2, 12, [.reckless_pawn_attacks]) ∧
     observe (eval stub (.call2 .reckless_pawn_attacks (.var "sq")
        (.not (.paren (.bin .lor (.var "z") (.var "c"))))) sample) =
      some (.int 0, [(.reckless_pawn_attacks, [27, 0])], 2, 12, [.reckless_pawn_attacks])) :=
  ⟨rfl, ⟨rfl, rfl⟩, ⟨rfl, rfl⟩, ⟨rfl, rfl⟩, ⟨rfl, rfl⟩⟩

/-- C10: for every integer value of the colour variable `y`, the flag handed to
`reckless_pawn_attacks` by `PYRRHIC_PAWN_ATTACKS(x, y)` is the boolean `y == 0`,
the value of `!y` being 1 or 0. So every nonzero colour behaves like the colour
1 and gives the flag `false`, and `PYRRHIC_PAWN_ATTACKS(x, !y)` gives the flag
`y != 0`. -/
theorem PYRRHIC_PAWN_ATTACKS_integer_colour {G : Type} (P : Prims G) (s : State G)
    (x y : String) :
    invoke P PYRRHIC_PAWN_ATTACKS [[.ident x], [.ident y]] s =
        ret .reckless_pawn_attacks s
          (P.reckless_pawn_attacks s.glob (toU32 (s.vars x)) (decide (s.vars y = 0))) ∧
    eval P (.not (.var y)) s = some (.int (if s.vars y = 0 then 1 else 0), s) ∧
    (s.vars y ≠ 0 →
      invoke P PYRRHIC_PAWN_ATTACKS [[.ident x], [.ident y]] s =
        ret .reckless_pawn_attacks s
          (P.reckless_pawn_attacks s.glob (toU32 (s.vars x)) false)) ∧
    (s.vars y ≠ 0 →
      invoke P PYRRHIC_PAWN_ATTACKS [[.ident x], [.ident y]] s =
        invoke P PYRRHIC_PAWN_ATTACKS [[.ident x], [.num 1]] s) ∧
    invoke P PYRRHIC_PAWN_ATTACKS [[.ident x], [.bang, .ident y]] s =
        ret .reckless_pawn_attacks s
          (P.reckless_pawn_attacks s.glob (toU32 (s.vars x)) (decide (s.vars y ≠ 0))) := by
  have e1 : invoke P PYRRHIC_PAWN_ATTACKS [[.ident x], [.ident y]] s =
      ret .reckless_pawn_attacks s
        (P.reckless_pawn_attacks s.glob (toU32 (s.vars x)) (toBool (lnot (s.vars y)))) := rfl
  have e2 : invoke P PYRRHIC_PAWN_ATTACKS [[.ident x], [.bang, .ident y]] s =
      ret .reckless_pawn_attacks s
        (P.reckless_pawn_attacks s.glob (toU32 (s.vars x))
          (toBool (lnot (lnot (s.vars y))))) := rfl
  have e3 : invoke P PYRRHIC_PAWN_ATTACKS [[.ident x], [.num 1]] s =
      ret .reckless_pawn_attacks s
        (P.reckless_pawn_attacks s.glob (toU32 (s.vars x)) false) := rfl
  rw [toBool_lnot] at e1
  rw [toBool_lnot_lnot] at e2
  refine ⟨e1, rfl, ?_, ?_, e2⟩
  · intro hy
    rw [e1]
    simp [hy]
  · intro hy
    rw [e1, e3]
    simp [hy]

/-- C10, at a concrete input: the colour 2 gives the flag 0, like the colour 1. -/
theorem PYRRHIC_PAWN_ATTACKS_integer_colour_witness :
    sample.vars "a" = 2 ∧
    observe (invoke stub PYRRHIC_PAWN_ATTACKS [[.ident "sq"], [.ident "a"]] sample) =
      some (.int 0, [(.reckless_pawn_attacks, [27, 0])], 2, 12, [.reckless_pawn_attacks]) ∧
    invoke stub PYRRHIC_PAWN_ATTACKS [[.ident "sq"], [.ident "a"]] sample =
      invoke stub PYRRHIC_PAWN_ATTACKS [[.ident "sq"], [.num 1]] sample :=
  ⟨by decide, rfl,
   (PYRRHIC_PAWN_ATTACKS_integer_colour stub sample "sq" "a").2.2.2.1 (by decide)⟩

end Reckless
